import Mathlib

/-!
Verification of the position-management engine of the pumpfunbot repository.

The definitions below are a shallow embedding of the TypeScript source:

* `Position`, `psGet`, `psSet`, `psClose`, `addBuy`, `psUpdate` embed the
  in-memory position ledger of positions.ts (class `Positions`, backed by a
  JavaScript `Map` keyed by the base58 mint string).
* `pnlPctOf`, `trailingDecision`, `fixedDecision`, `evalTickTrailing` embed
  the exit-policy arithmetic of `Tracker.evaluatePosition` in tracker.ts.
  bn.js division truncates toward zero, so it is embedded as `Int.tdiv`;
  the final `toNumber() / 10000` step is embedded as exact division in `ℚ`.
* `markProcessed`, `buyDetStep`, `launchDetStep` embed the signature
  dedup discipline of `startBuyDetection` (detection code in config.ts) and of
  `startOnchainCreateDetection` (the launch detector).  JavaScript `Set`
  objects are embedded as insertion-ordered duplicate-free lists.
* `sellAllModel` embeds the submit/confirm/resubmit loop of `Tracker.sellAll`,
  with the two signature waits of each attempt abstracted as outcomes.
* `decodeLaunchTx` embeds the per-transaction decode of the launch detector:
  top-level search, inner-instruction search, post-token-balance majority
  fallback and parsed inner-instruction re-parse fallback.  The anchor coder
  is external, so the decode result of each instruction is carried as a field
  of the embedded instruction record.
-/

set_option autoImplicit false

namespace Pumpfun

/-! ### Position ledger (positions.ts) -/

/-- A tracked position, one per mint.  `tokens` and `costLamports` are bn.js
big integers in the source, embedded as `Int`; `peakSolOut` is the optional
trailing-stop high-water mark. -/
structure Position where
  mint : String
  openedAt : Int
  openedSig : String
  tokens : Int
  costLamports : Int
  peakSolOut : Option Int := none
deriving DecidableEq, Repr

/-- The backing `Map<string, Position>` of class `Positions`, embedded as an
insertion-ordered association list with unique keys. -/
abbrev PMap := List (String × Position)

/-- `Map.get`: first entry with the given key. -/
def psGet : PMap → String → Option Position
  | [], _ => none
  | (k', v') :: rest, k => if k' = k then some v' else psGet rest k

/-- `Map.set`: replace in place when the key is present, append otherwise
(JavaScript `Map.set` keeps insertion order for existing keys). -/
def psSet : PMap → String → Position → PMap
  | [], k, v => [(k, v)]
  | (k', v') :: rest, k, v =>
      if k' = k then (k, v) :: rest else (k', v') :: psSet rest k v

/-- `Positions.close`: `Map.delete` by mint key. -/
def psClose : PMap → String → PMap
  | [], _ => []
  | (k', v') :: rest, k => if k' = k then rest else (k', v') :: psClose rest k

/-- `Positions.addBuy`: accumulate tokens and cost into an existing position
for the same mint (updating `openedSig` and `openedAt` to the latest buy), or
insert the position when the mint has no live position. -/
def addBuy (ps : PMap) (pos : Position) : PMap :=
  match psGet ps pos.mint with
  | some existing =>
      psSet ps pos.mint
        { existing with
          tokens := existing.tokens + pos.tokens
          costLamports := existing.costLamports + pos.costLamports
          openedSig := pos.openedSig
          openedAt := pos.openedAt }
  | none => psSet ps pos.mint pos

/-- The `Partial<Position>` argument of `Positions.update`: a field is applied
only when provided (`!== undefined` in the source). -/
structure PositionPatch where
  openedAt : Option Int := none
  openedSig : Option String := none
  tokens : Option Int := none
  costLamports : Option Int := none
  peakSolOut : Option Int := none
deriving DecidableEq, Repr

/-- Apply the provided fields of a patch to an existing position. -/
def applyPatch (p : Position) (f : PositionPatch) : Position :=
  { p with
    openedAt := f.openedAt.getD p.openedAt
    openedSig := f.openedSig.getD p.openedSig
    tokens := f.tokens.getD p.tokens
    costLamports := f.costLamports.getD p.costLamports
    peakSolOut := match f.peakSolOut with
      | some v => some v
      | none => p.peakSolOut }

/-- `Positions.update`: patch the existing position for the mint; a missing
mint returns immediately without touching the map. -/
def psUpdate (ps : PMap) (mint : String) (f : PositionPatch) : PMap :=
  match psGet ps mint with
  | none => ps
  | some e => psSet ps mint (applyPatch e f)

/-- Key uniqueness, the standing invariant of a JavaScript `Map`. -/
def PNodup (ps : PMap) : Prop := (ps.map Prod.fst).Nodup

/-! ### Exit-policy arithmetic (tracker.ts, `Tracker.evaluatePosition`) -/

/-- The PnL percentage of `evaluatePosition`:
`pos.costLamports.isZero() ? 0 :
 pnlLamports.muln(10000).div(pos.costLamports).toNumber() / 10000`
with `pnlLamports = solOut.sub(pos.costLamports)`.  bn.js `div` truncates
toward zero (`Int.tdiv`); the final float division by 10000 is embedded as
exact division in `ℚ`. -/
def pnlPctOf (solOut costLamports : Int) : ℚ :=
  if costLamports = 0 then 0
  else ((Int.tdiv ((solOut - costLamports) * 10000) costLamports : Int) : ℚ) / 10000

/-- Exit reasons of the policy branch of `evaluatePosition`. -/
inductive ExitReason where
  | TP
  | SL
  | TSL
deriving DecidableEq, Repr

/-- Outcome of one policy-branch evaluation for one position. -/
inductive ExitAction where
  | hold
  | peakUpdate (newPeak : Int)
  | trigger (reason : ExitReason)
deriving DecidableEq, Repr

/-- The trailing-stop arm: when no peak is stored or the quote strictly
exceeds the stored peak, persist the quote as the new peak and return without
selling; otherwise compare the quote against
`peak.muln(10000 - trailingSlBps).divn(10000)` and trigger a trailing-stop
exit when the quote is at or below that threshold. -/
def trailingDecision (trailingSlBps : Int) (peakSolOut : Option Int) (solOut : Int) : ExitAction :=
  match peakSolOut with
  | none => .peakUpdate solOut
  | some p =>
      if p < solOut then .peakUpdate solOut
      else if solOut ≤ Int.tdiv (p * (10000 - trailingSlBps)) 10000 then .trigger .TSL
      else .hold

/-- The fixed TP/SL arm: trigger when `pnlPct >= tpPct || pnlPct <= slPct`,
with reason TP when the take-profit comparison holds, SL otherwise. -/
def fixedDecision (tpPct slPct : ℚ) (pnlPct : ℚ) : ExitAction :=
  if tpPct ≤ pnlPct ∨ pnlPct ≤ slPct then
    .trigger (if tpPct ≤ pnlPct then .TP else .SL)
  else .hold

/-- One trailing-mode evaluation tick for one mint, acting on the ledger: a
peak update is persisted through `positions.update(mint, { peakSolOut })`; a
trigger leads to `positions.close(mint)` when the resulting sell (or the
simulation close) completes, and leaves the ledger untouched otherwise. -/
def evalTickTrailing (bps : Int) (ps : PMap) (mint : String) (solOut : Int)
    (sellSucceeds : Bool) : PMap :=
  match psGet ps mint with
  | none => ps
  | some pos =>
      match trailingDecision bps pos.peakSolOut solOut with
      | .peakUpdate newPeak => psUpdate ps mint { peakSolOut := some newPeak }
      | .trigger _ => if sellSucceeds then psClose ps mint else ps
      | .hold => ps

/-- A sequence of trailing-mode evaluation ticks for one mint; each element is
the quoted sell-all value of the tick paired with whether a triggered exit
completed (removing the position). -/
def trailTickRun (bps : Int) (mint : String) (ps : PMap) (qs : List (Int × Bool)) : PMap :=
  qs.foldl (fun s q => evalTickTrailing bps s mint q.1 q.2) ps

/-! ### Detection dedup (startBuyDetection in config.ts, launch detector) -/

/-- JavaScript `Set.add`: append when absent, keep insertion order. -/
def setAdd (l : List String) (x : String) : List String :=
  if x ∈ l then l else l ++ [x]

/-- State of the wallet-buy detector: the in-flight set, the processed set,
the FIFO eviction queue backing it, and the log of `onBuy` emissions. -/
structure BuyDetState where
  inFlight : List String
  processed : List String
  processedQueue : List String
  buyEvents : List String
deriving DecidableEq, Repr

/-- `markProcessed` of `startBuyDetection`: ignore a signature already in the
processed set; otherwise add it to the set, push it on the queue, and once the
queue holds more than 200 entries shift the oldest off and delete it from the
set (the source guards the delete by truthiness of the shifted value). -/
def markProcessed (s : BuyDetState) (sig : String) : BuyDetState :=
  if sig ∈ s.processed then s
  else
    let processed := s.processed ++ [sig]
    let queue := s.processedQueue ++ [sig]
    if 200 < queue.length then
      let old := queue.headD ""
      { s with
        processed := if old = "" then processed else processed.erase old
        processedQueue := queue.tail }
    else { s with processed := processed, processedQueue := queue }

/-- Events the buy-detector state machine reacts to: a signature delivered by
the log subscription, a signature discovered by the polling loop, and the
completion of an in-flight `handleSignature` body. -/
inductive DetOp where
  | pushStart (sig : String)
  | pollStart (sig : String)
  | finish (sig : String)
deriving DecidableEq, Repr

/-- One step of the wallet-buy detector.  The log-subscription callback drops
falsy signatures and calls `handleSignature`, whose only entry guard is the
in-flight set.  The polling loop additionally skips signatures already in the
processed set before calling `handleSignature`.  On completion of a
signature whose transaction parses as a buy (`parses`), the handler emits the
event through `onBuy` and records the signature via `markProcessed`; the
`finally` block removes the signature from the in-flight set. -/
def buyDetStep (parses : String → Bool) (s : BuyDetState) : DetOp → BuyDetState
  | .pushStart sig =>
      if sig = "" then s
      else if sig ∈ s.inFlight then s
      else { s with inFlight := setAdd s.inFlight sig }
  | .pollStart sig =>
      if sig = "" then s
      else if sig ∈ s.processed then s
      else if sig ∈ s.inFlight then s
      else { s with inFlight := setAdd s.inFlight sig }
  | .finish sig =>
      if sig ∈ s.inFlight then
        let s1 :=
          if parses sig then markProcessed { s with buyEvents := s.buyEvents ++ [sig] } sig
          else s
        { s1 with inFlight := s1.inFlight.erase sig }
      else s

/-- Initial detector state. -/
def buyDetInit : BuyDetState := ⟨[], [], [], []⟩

/-- Run the wallet-buy detector over a trace of operations. -/
def buyDetRun (parses : String → Bool) (ops : List DetOp) : BuyDetState :=
  ops.foldl (buyDetStep parses) buyDetInit

/-- State of the launch detector: in-flight set, processed set (a plain
`Set` with no eviction queue), and the log of `onCreate` emissions. -/
structure LaunchDetState where
  inFlight : List String
  processed : List String
  createEvents : List String
deriving DecidableEq, Repr

/-- Events of the launch-detector state machine: signature delivery from the
program-log subscription, and completion of an in-flight handler. -/
inductive LaunchOp where
  | start (sig : String)
  | finish (sig : String)
deriving DecidableEq, Repr

/-- One step of the launch detector.  Its `handleSignature` checks both the
processed set and the in-flight set at entry; on success it emits the event
and records the signature with a plain unbounded `processed.add`. -/
def launchDetStep (decodes : String → Bool) (s : LaunchDetState) : LaunchOp → LaunchDetState
  | .start sig =>
      if sig = "" then s
      else if sig ∈ s.processed ∨ sig ∈ s.inFlight then s
      else { s with inFlight := setAdd s.inFlight sig }
  | .finish sig =>
      if sig ∈ s.inFlight then
        let s1 :=
          if decodes sig then
            { s with
              createEvents := s.createEvents ++ [sig]
              processed := setAdd s.processed sig }
          else s
        { s1 with inFlight := s1.inFlight.erase sig }
      else s

/-- Initial launch-detector state. -/
def launchDetInit : LaunchDetState := ⟨[], [], []⟩

/-- Run the launch detector over a trace of operations. -/
def launchDetRun (decodes : String → Bool) (ops : List LaunchOp) : LaunchDetState :=
  ops.foldl (launchDetStep decodes) launchDetInit

/-- Dedup invariant of the wallet-buy detector: the processed set and its
eviction queue hold the same signatures in the same order, without
duplicates, without the empty string, and within the capacity bound. -/
def BuyDedupInv (s : BuyDetState) : Prop :=
  s.processed = s.processedQueue ∧ s.processedQueue.Nodup ∧
    "" ∉ s.processedQueue ∧ s.processedQueue.length ≤ 200

/-! ### Sell submission pipeline (tracker.ts, `Tracker.sellAll`) -/

/-- Outcome of one `waitSignatureWS` call: the callback resolved without an
error, the timer fired first (`ws-timeout`), or the callback reported an
on-chain transaction error (`Tx error: ...`). -/
inductive WaitOutcome where
  | ok
  | timeout
  | txError
deriving DecidableEq, Repr

/-- The two wait outcomes the network produces for one submission attempt:
first the short processed-commitment wait, then the longer
confirmed-commitment wait (consulted only when the first resolves). -/
structure AttemptEnv where
  processedWait : WaitOutcome
  confirmedWait : WaitOutcome
deriving DecidableEq, Repr

/-- Observable result of a `sellAll` run: how many transactions were signed
and sent (each against a freshly fetched blockhash), whether the loop ended
with a confirmed sell, the error surfaced to the caller if any, and whether
`positions.close` ran (it runs only after the loop exits normally). -/
structure SellRun where
  submissions : Nat
  confirmed : Bool
  thrown : Option WaitOutcome
  positionClosed : Bool
deriving DecidableEq, Repr

/-- The second (and last) loop iteration: `attempt = 2`, so every failed wait
is thrown — the processed-stage catch rethrows because `attempt < 2` is
false, and the confirmed-stage catch rethrows for the same reason. -/
def sellAllSecondAttempt (a2 : AttemptEnv) : SellRun :=
  match a2.processedWait with
  | .ok =>
      match a2.confirmedWait with
      | .ok => ⟨2, true, none, true⟩
      | o => ⟨2, false, some o, false⟩
  | o => ⟨2, false, some o, false⟩

/-- The `sellAll` retry loop over the two attempts.  On the first attempt the
processed-stage catch resubmits on any failure (`if (attempt < 2) continue`),
while the confirmed-stage catch resubmits only when the message contains
`ws-timeout` and otherwise rethrows. -/
def sellAllModel (a1 a2 : AttemptEnv) : SellRun :=
  match a1.processedWait with
  | .ok =>
      match a1.confirmedWait with
      | .ok => ⟨1, true, none, true⟩
      | .timeout => sellAllSecondAttempt a2
      | .txError => ⟨1, false, some .txError, false⟩
  | _ => sellAllSecondAttempt a2

/-! ### Launch decoder (launch detector, raw-transaction variant) -/

/-- Result of `program.coder.instruction.decode` on the data of one
instruction, when it returned a value: the instruction name and, for a
`create`, the decoded fields. -/
structure DecodedIns where
  name : String
  createName : String := ""
  createSymbol : String := ""
  createUri : String := ""
  creator : Option String := none
deriving DecidableEq, Repr

/-- One compiled instruction of the raw transaction: program-id index and
account indexes into the full key table, the data length, and the decode
result of the coder on its data (`none` embeds both a null return and a
thrown decode error). -/
structure CompiledIx where
  programIdIndex : Nat
  dataLen : Nat
  accounts : List Nat
  decodeResult : Option DecodedIns
deriving DecidableEq, Repr

/-- One parsed inner instruction of the `getParsedTransaction` fallback view:
the program label, the parsed type string, and the optional
`info.mint` / `info.account` fields. -/
structure ParsedInnerIx where
  program : String
  parsedType : String
  infoMint : Option String := none
  infoAccount : Option String := none
deriving DecidableEq, Repr

/-- The per-transaction view the launch decoder works from: static keys plus
address-table-loaded keys, top-level and inner compiled instructions, the
mint strings of `postTokenBalances`, the parsed inner instructions of the
re-parse fallback, and whether the transaction failed on-chain. -/
structure RawTxView where
  staticKeys : List String
  loadedWritable : List String
  loadedReadonly : List String
  topLevel : List CompiledIx
  inner : List (List CompiledIx)
  postTokenBalanceMints : List String
  parsedInner : List (List ParsedInnerIx)
  err : Bool
deriving DecidableEq, Repr

/-- The emitted launch event (signature, slot and block time are copied from
the transaction unchanged and are omitted here). -/
structure NewLaunchEvent where
  mint : String
  creator : String
  name : String
  symbol : String
  uri : String
deriving DecidableEq, Repr

/-- Full account-key table: `staticKeys ++ loadedWritable ++ loadedReadonly`. -/
def allKeys (tx : RawTxView) : List String :=
  tx.staticKeys ++ tx.loadedWritable ++ tx.loadedReadonly

/-- JavaScript truthiness on an optional string: keep only a present,
non-empty value. -/
def truthyStr : Option String → Option String
  | some s => if s = "" then none else some s
  | none => none

/-- The destructured payload of a decoded `create` instruction. -/
structure CreatePayload where
  name : String
  symbol : String
  uri : String
  creator : Option String
deriving DecidableEq, Repr

/-- Decode attempt for one compiled instruction (the `tryDecode` helper; the
top-level loop inlines the same logic): the instruction must resolve to the
pump program id, carry non-empty data, and decode to a `create`; the mint and
user candidates are taken from account positions 0 and 7 when more than 7
accounts are present, each kept only when truthy. -/
def tryDecodeCreate (pumpPid : String) (keys : List String) (ix : CompiledIx) :
    Option (CreatePayload × Option String × Option String) :=
  match keys.get? ix.programIdIndex with
  | none => none
  | some pid =>
      if pid ≠ pumpPid then none
      else if ix.dataLen = 0 then none
      else
        match ix.decodeResult with
        | none => none
        | some d =>
            if d.name ≠ "create" then none
            else
              let payload : CreatePayload := ⟨d.createName, d.createSymbol, d.createUri, d.creator⟩
              if 7 < ix.accounts.length then
                some (payload,
                  truthyStr ((ix.accounts.get? 0).bind keys.get?),
                  truthyStr ((ix.accounts.get? 7).bind keys.get?))
              else some (payload, none, none)

/-- First decodable `create` in a list of compiled instructions (both the
top-level loop and the inner-instruction loop stop at the first hit). -/
def findCreate (pumpPid : String) (keys : List String) :
    List CompiledIx → Option (CreatePayload × Option String × Option String)
  | [] => none
  | ix :: rest =>
      match tryDecodeCreate pumpPid keys ix with
      | some r => some r
      | none => findCreate pumpPid keys rest

/-- The decoded `create` of the transaction: top-level instructions first,
then the flattened inner instructions. -/
def foundCreate (pumpPid : String) (tx : RawTxView) :
    Option (CreatePayload × Option String × Option String) :=
  match findCreate pumpPid (allKeys tx) tx.topLevel with
  | some r => some r
  | none => findCreate pumpPid (allKeys tx) tx.inner.flatten

/-- Mint keys of a JavaScript `Map` built by counting, i.e. the mints in
first-occurrence order. -/
def firstOccurrences (l : List String) : List String :=
  l.foldl (fun acc m => if m ∈ acc then acc else acc ++ [m]) []

/-- The majority fallback over `postTokenBalances` mints: count occurrences,
scan the counts in insertion order keeping the first strict maximum, and keep
the winner only when truthy. -/
def majorityMint (mints : List String) : Option String :=
  let best := (firstOccurrences mints).foldl
    (fun acc m =>
      if acc.2 < List.count m mints then (some m, List.count m mints) else acc)
    ((none : Option String), 0)
  truthyStr best.1

/-- Whether the pattern occurs as a leading block of the character list. -/
def listLeadsWith : List Char → List Char → Bool
  | [], _ => true
  | _ :: _, [] => false
  | a :: as, b :: bs => a = b && listLeadsWith as bs

/-- Whether the pattern occurs anywhere in the character list
(`String.includes`). -/
def listHasSub (pat : List Char) : List Char → Bool
  | [] => pat.isEmpty
  | c :: rest => listLeadsWith pat (c :: rest) || listHasSub pat rest

/-- `t.includes("initialize")` on the lowercased parsed type. -/
def typeHasInitialize (t : String) : Bool :=
  listHasSub "initialize".data t.toLower.data

/-- The candidate mint of one parsed inner instruction: an spl-token
`initialize...` operation with a truthy `info.mint` or `info.account`; the
mint field is preferred, mirroring `info.mint || info.account` plus the
explicit preference line of the source. -/
def parsedInnerCandidate (ix : ParsedInnerIx) : Option String :=
  if ix.program = "spl-token" ∧ typeHasInitialize ix.parsedType = true ∧
      (truthyStr ix.infoMint ≠ none ∨ truthyStr ix.infoAccount ≠ none) then
    match truthyStr ix.infoMint with
    | some m => some m
    | none => truthyStr ix.infoAccount
  else none

/-- First candidate mint in a list of parsed inner instructions. -/
def parsedInnerScan : List ParsedInnerIx → Option String
  | [] => none
  | ix :: rest =>
      match parsedInnerCandidate ix with
      | some m => some m
      | none => parsedInnerScan rest

/-- The re-parse fallback: scan the parsed inner-instruction groups in order
and stop at the first candidate mint. -/
def parsedInnerMint : List (List ParsedInnerIx) → Option String
  | [] => none
  | g :: rest =>
      match parsedInnerScan g with
      | some m => some m
      | none => parsedInnerMint rest

/-- The resolved mint candidate of the transaction: the mint carried by the
accounts of the decoded `create` when present, else the token-balance
majority fallback, else the parsed inner-instruction re-parse fallback. -/
def resolvedMint (pumpPid : String) (tx : RawTxView) : Option String :=
  match foundCreate pumpPid tx with
  | none => none
  | some (_, mint0, _) =>
      match mint0 with
      | some m => some m
      | none =>
          match majorityMint tx.postTokenBalanceMints with
          | some m => some m
          | none => parsedInnerMint tx.parsedInner

/-- The launch decoder for one fetched transaction: drop failed transactions,
find a decodable `create`, resolve the mint through the fallback chain, and
emit an event only when both are present (the final emission guard of the
source is the truthiness test `decodedCreate && mintCandidate`).  The creator
field is the decoded creator when truthy, else the user account candidate,
else the empty string. -/
def decodeLaunchTx (pumpPid : String) (tx : RawTxView) : Option NewLaunchEvent :=
  if tx.err then none
  else
    match foundCreate pumpPid tx with
    | none => none
    | some (payload, _, user) =>
        match truthyStr (resolvedMint pumpPid tx) with
        | none => none
        | some m =>
            some
              { mint := m
                creator :=
                  match truthyStr payload.creator with
                  | some c => c
                  | none => user.getD ""
                name := payload.name
                symbol := payload.symbol
                uri := payload.uri }

/-- Trace of detector operations feeding one signature after another through
the launch detector, each fully processed before the next arrives. -/
def launchPairTrace : List String → List LaunchOp
  | [] => []
  | g :: rest => LaunchOp.start g :: LaunchOp.finish g :: launchPairTrace rest

/-- The k-th of a family of pairwise distinct non-empty signatures. -/
def launchSig (k : Nat) : String := String.mk (List.replicate (k + 1) 'a')

/-- Full invariant of the wallet-buy detector state machine: the dedup
invariant plus absence of the empty signature from the in-flight set (the
subscription callback and the polling loop both drop falsy signatures). -/
def BuyMachineInv (s : BuyDetState) : Prop :=
  BuyDedupInv s ∧ "" ∉ s.inFlight

/-- A sample raw transaction carrying a decodable `create` at top level whose
accounts resolve the mint and user. -/
def sampleCreateTx : RawTxView where
  staticKeys := ["PUMP", "MINT", "k2", "k3", "k4", "k5", "k6", "USER"]
  loadedWritable := []
  loadedReadonly := []
  topLevel := [⟨0, 1, [1, 0, 0, 0, 0, 0, 0, 7], some ⟨"create", "Nm", "SYM", "uri", some "CREATOR"⟩⟩]
  inner := []
  postTokenBalanceMints := []
  parsedInner := []
  err := false

/-! ## Theorems -/

/-! ### Ledger map lemmas -/

theorem psGet_psSet_self (ps : PMap) (k : String) (v : Position) :
    psGet (psSet ps k v) k = some v := by
  induction ps with
  | nil => simp [psSet, psGet]
  | cons hd tl ih =>
      obtain ⟨k', v'⟩ := hd
      by_cases h : k' = k
      · simp [psSet, h, psGet]
      · simp [psSet, h, psGet, ih]

theorem psGet_eq_none_iff (ps : PMap) (k : String) :
    psGet ps k = none ↔ k ∉ ps.map Prod.fst := by
  induction ps with
  | nil => simp [psGet]
  | cons hd tl ih =>
      obtain ⟨k', v'⟩ := hd
      by_cases h : k' = k
      · subst h
        simp [psGet]
      · constructor
        · intro hn
          simp only [List.map_cons, List.mem_cons]
          rintro (hk | hk)
          · exact h hk.symm
          · simp only [psGet, if_neg h] at hn
            exact (ih.mp hn) hk
        · intro hk
          simp only [psGet, if_neg h]
          exact ih.mpr (fun hm => hk (by simp [hm]))

theorem psSet_map_fst_of_get (ps : PMap) (k : String) (v e : Position)
    (h : psGet ps k = some e) :
    (psSet ps k v).map Prod.fst = ps.map Prod.fst := by
  induction ps with
  | nil => simp [psGet] at h
  | cons hd tl ih =>
      obtain ⟨k', v'⟩ := hd
      by_cases hk : k' = k
      · simp [psSet, hk]
      · simp [psGet, hk] at h
        simp [psSet, hk, ih h]

theorem psClose_map_fst_sublist (ps : PMap) (k : String) :
    List.Sublist ((psClose ps k).map Prod.fst) (ps.map Prod.fst) := by
  induction ps with
  | nil => simp [psClose]
  | cons hd tl ih =>
      obtain ⟨k', v'⟩ := hd
      by_cases hk : k' = k
      · simp only [psClose, if_pos hk, List.map_cons]
        exact List.sublist_cons_self _ _
      · simp only [psClose, if_neg hk, List.map_cons]
        exact List.Sublist.cons₂ _ ih

theorem psClose_nodup (ps : PMap) (k : String) (h : PNodup ps) :
    PNodup (psClose ps k) :=
  List.Sublist.nodup (psClose_map_fst_sublist ps k) h

theorem psUpdate_nodup (ps : PMap) (mint : String) (f : PositionPatch)
    (h : PNodup ps) : PNodup (psUpdate ps mint f) := by
  unfold psUpdate
  cases hg : psGet ps mint with
  | none => exact h
  | some e =>
      unfold PNodup
      rw [psSet_map_fst_of_get ps mint _ e hg]
      exact h

theorem psGet_psClose_self (ps : PMap) (k : String) (h : PNodup ps) :
    psGet (psClose ps k) k = none := by
  induction ps with
  | nil => simp [psClose, psGet]
  | cons hd tl ih =>
      obtain ⟨k', v'⟩ := hd
      unfold PNodup at h
      simp only [List.map_cons, List.nodup_cons] at h
      by_cases hk : k' = k
      · simp only [psClose, if_pos hk]
        rw [psGet_eq_none_iff]
        rw [hk] at h
        exact h.1
      · simp [psClose, hk, psGet, ih h.2]

theorem psGet_psUpdate_self (ps : PMap) (mint : String) (f : PositionPatch)
    (e : Position) (h : psGet ps mint = some e) :
    psGet (psUpdate ps mint f) mint = some (applyPatch e f) := by
  unfold psUpdate
  rw [h]
  exact psGet_psSet_self ps mint _

theorem addBuy_fold_acc (events : List Position) :
    ∀ (ps : PMap) (mint : String) (pos0 : Position),
      (∀ e ∈ events, e.mint = mint) → psGet ps mint = some pos0 →
      ∃ pos, psGet (events.foldl addBuy ps) mint = some pos ∧
        pos.tokens = pos0.tokens + (events.map Position.tokens).sum ∧
        pos.costLamports = pos0.costLamports + (events.map Position.costLamports).sum := by
  induction events with
  | nil =>
      intro ps mint pos0 _ hget
      exact ⟨pos0, by simpa using hget, by simp, by simp⟩
  | cons e rest ih =>
      intro ps mint pos0 hm hget
      have he : e.mint = mint := hm e (by simp)
      have hget' : psGet ps e.mint = some pos0 := by rw [he]; exact hget
      have hstep : addBuy ps e =
          psSet ps e.mint
            { pos0 with
              tokens := pos0.tokens + e.tokens
              costLamports := pos0.costLamports + e.costLamports
              openedSig := e.openedSig
              openedAt := e.openedAt } := by
        unfold addBuy
        rw [hget']
      have hget2 : psGet (addBuy ps e) mint =
          some { pos0 with
                 tokens := pos0.tokens + e.tokens
                 costLamports := pos0.costLamports + e.costLamports
                 openedSig := e.openedSig
                 openedAt := e.openedAt } := by
        rw [hstep, ← he]
        exact psGet_psSet_self ps e.mint _
      obtain ⟨pos, h1, h2, h3⟩ :=
        ih (addBuy ps e) mint _ (fun x hx => hm x (by simp [hx])) hget2
      refine ⟨pos, by simpa [List.foldl_cons] using h1, ?_, ?_⟩
      · simp only [List.map_cons, List.sum_cons]
        rw [h2]; ring_nf
      · simp only [List.map_cons, List.sum_cons]
        rw [h3]; ring_nf

/-- Claim C1: folding any non-empty sequence of buy events for one asset into
the ledger through `addBuy` yields a single position whose `tokens` is the
sum of the token deltas and whose `costLamports` is the sum of the costs, and
an `addBuy` against an existing live position accumulates the token and cost
totals instead of overwriting them. -/
theorem addBuy_accumulates :
    (∀ (mint : String) (events : List Position) (ps : PMap),
        psGet ps mint = none → events ≠ [] → (∀ e ∈ events, e.mint = mint) →
        ∃ pos, psGet (events.foldl addBuy ps) mint = some pos ∧
          pos.tokens = (events.map Position.tokens).sum ∧
          pos.costLamports = (events.map Position.costLamports).sum) ∧
    (∀ (ps : PMap) (pos existing : Position),
        psGet ps pos.mint = some existing →
        ∃ merged, psGet (addBuy ps pos) pos.mint = some merged ∧
          merged.tokens = existing.tokens + pos.tokens ∧
          merged.costLamports = existing.costLamports + pos.costLamports) := by
  constructor
  · intro mint events ps hnone hne hm
    match events with
    | [] => exact absurd rfl hne
    | e :: rest =>
        have he : e.mint = mint := hm e (by simp)
        have hstep : addBuy ps e = psSet ps e.mint e := by
          unfold addBuy
          rw [he, hnone]
        have hget2 : psGet (addBuy ps e) mint = some e := by
          rw [hstep, ← he]
          exact psGet_psSet_self ps e.mint e
        obtain ⟨pos, h1, h2, h3⟩ :=
          addBuy_fold_acc rest (addBuy ps e) mint e
            (fun x hx => hm x (by simp [hx])) hget2
        refine ⟨pos, by simpa [List.foldl_cons] using h1, ?_, ?_⟩
        · simp only [List.map_cons, List.sum_cons]; rw [h2]
        · simp only [List.map_cons, List.sum_cons]; rw [h3]
  · intro ps pos existing hget
    refine ⟨{ existing with
              tokens := existing.tokens + pos.tokens
              costLamports := existing.costLamports + pos.costLamports
              openedSig := pos.openedSig
              openedAt := pos.openedAt }, ?_, rfl, rfl⟩
    unfold addBuy
    rw [hget]
    exact psGet_psSet_self ps pos.mint _

/-- Witness for C1 at a concrete two-buy sequence. -/
theorem addBuy_accumulates_witness :
    ∃ pos, psGet (([⟨"M", 0, "s1", 5, 7, none⟩, ⟨"M", 1, "s2", 3, 2, none⟩] :
        List Position).foldl addBuy []) "M" = some pos ∧
      pos.tokens = (([⟨"M", 0, "s1", 5, 7, none⟩, ⟨"M", 1, "s2", 3, 2, none⟩] :
        List Position).map Position.tokens).sum ∧
      pos.costLamports = (([⟨"M", 0, "s1", 5, 7, none⟩, ⟨"M", 1, "s2", 3, 2, none⟩] :
        List Position).map Position.costLamports).sum :=
  addBuy_accumulates.1 "M" [⟨"M", 0, "s1", 5, 7, none⟩, ⟨"M", 1, "s2", 3, 2, none⟩] []
    rfl (by decide) (by decide)

/-- Claim C9: `Positions.update` for a mint with no live position is a no-op
on the whole ledger, so a peak update arriving after a close cannot resurrect
the closed position. -/
theorem update_missing_noop :
    (∀ (ps : PMap) (mint : String) (f : PositionPatch),
        psGet ps mint = none → psUpdate ps mint f = ps) ∧
    (∀ (ps : PMap) (mint : String) (f : PositionPatch),
        PNodup ps → psGet (psUpdate (psClose ps mint) mint f) mint = none) := by
  have h1 : ∀ (ps : PMap) (mint : String) (f : PositionPatch),
      psGet ps mint = none → psUpdate ps mint f = ps := by
    intro ps mint f h
    unfold psUpdate
    rw [h]
  refine ⟨h1, ?_⟩
  intro ps mint f hnd
  have hc : psGet (psClose ps mint) mint = none := psGet_psClose_self ps mint hnd
  rw [h1 _ _ _ hc]
  exact hc

/-- Witness for C9 at a concrete singleton ledger. -/
theorem update_missing_noop_witness :
    psUpdate [("A", ⟨"A", 0, "s", 1, 1, none⟩)] "B" { peakSolOut := some 3 } =
      [("A", ⟨"A", 0, "s", 1, 1, none⟩)] ∧
    psGet (psUpdate (psClose [("A", ⟨"A", 0, "s", 1, 1, none⟩)] "A") "A"
      { peakSolOut := some 3 }) "A" = none :=
  ⟨update_missing_noop.1 _ "B" _ rfl,
   update_missing_noop.2 [("A", ⟨"A", 0, "s", 1, 1, none⟩)] "A" _ (by simp [PNodup])⟩

/-- Claim C10: a position whose cost basis is zero gets a PnL of zero by the
explicit zero-guard of `evaluatePosition`, so the basis-point division is
never performed with a zero divisor. -/
theorem pnl_zero_cost_guard : ∀ solOut : Int, pnlPctOf solOut 0 = 0 := by
  intro solOut
  simp [pnlPctOf]

/-- Claim C3: on a trailing-mode tick with no stored peak or a quote strictly
above the stored peak, the decision is to persist the quote as the new peak
and return without triggering; on a tick that does not set a new peak, the
trailing-stop exit triggers exactly when the quote is at or below
`peak * (10000 - trailingBps) / 10000` (truncated division); in particular a
stored peak of 100000000 with trailing 3000 bps and a next quote of 69000000
triggers. -/
theorem trailing_stop_exit_iff :
    (∀ (bps : Int) (peak : Option Int) (solOut : Int),
        (peak = none ∨ ∃ p, peak = some p ∧ p < solOut) →
        trailingDecision bps peak solOut = .peakUpdate solOut) ∧
    (∀ (bps p solOut : Int), solOut ≤ p →
        (trailingDecision bps (some p) solOut = .trigger .TSL ↔
          solOut ≤ Int.tdiv (p * (10000 - bps)) 10000)) ∧
    trailingDecision 3000 (some 100000000) 69000000 = .trigger .TSL := by
  refine ⟨?_, ?_, by decide⟩
  · intro bps peak solOut h
    rcases h with h | ⟨p, hp, hlt⟩
    · rw [h]; rfl
    · rw [hp]
      simp [trailingDecision, hlt]
  · intro bps p solOut h
    simp only [trailingDecision, if_neg (not_lt.mpr h)]
    split_ifs with hc
    · exact iff_of_true rfl hc
    · exact iff_of_false (by simp) hc

/-- Witness for C3: a fresh-peak tick and the concrete trigger comparison. -/
theorem trailing_stop_exit_iff_witness :
    trailingDecision 3000 none 5 = .peakUpdate 5 ∧
    (trailingDecision 3000 (some 100000000) 69000000 = .trigger .TSL ↔
      (69000000 : Int) ≤ Int.tdiv (100000000 * (10000 - 3000)) 10000) :=
  ⟨trailing_stop_exit_iff.1 3000 none 5 (Or.inl rfl),
   trailing_stop_exit_iff.2.1 3000 100000000 69000000 (by decide)⟩

/-- Claim C4: in fixed mode an exit triggers exactly when
`pnlPct >= takeProfitPct` or `pnlPct <= stopLossPct`, with `pnlPct` the
basis-point-scaled integer PnL ratio; the concrete scenario
(cost 50000000, quote 67500000) yields `pnlPct = 0.35` and triggers a
take-profit exit at `takeProfitPct = 0.35`. -/
theorem fixed_exit_iff :
    (∀ (tp sl : ℚ) (solOut cost : Int),
        (∃ r, fixedDecision tp sl (pnlPctOf solOut cost) = .trigger r) ↔
          (tp ≤ pnlPctOf solOut cost ∨ pnlPctOf solOut cost ≤ sl)) ∧
    pnlPctOf 67500000 50000000 = 35 / 100 ∧
    (∀ sl : ℚ, fixedDecision (35 / 100) sl (pnlPctOf 67500000 50000000) =
      .trigger .TP) := by
  have hval : pnlPctOf 67500000 50000000 = 35 / 100 := by
    have h : Int.tdiv ((67500000 - 50000000) * 10000) 50000000 = 3500 := by decide
    simp only [pnlPctOf, h]
    norm_num
  refine ⟨?_, hval, ?_⟩
  · intro tp sl solOut cost
    by_cases hc : tp ≤ pnlPctOf solOut cost ∨ pnlPctOf solOut cost ≤ sl
    · refine iff_of_true ?_ hc
      exact ⟨if tp ≤ pnlPctOf solOut cost then ExitReason.TP else ExitReason.SL,
        by simp [fixedDecision, hc]⟩
    · refine iff_of_false ?_ hc
      rintro ⟨r, hr⟩
      simp [fixedDecision, hc] at hr
  · intro sl
    rw [hval]
    simp [fixedDecision]

/-- Witness for C4: the concrete scenario triggers, through both conjuncts. -/
theorem fixed_exit_iff_witness :
    (∃ r, fixedDecision (35 / 100) (-(2 / 10)) (pnlPctOf 67500000 50000000) =
      .trigger r) ∧
    fixedDecision (35 / 100) (-(2 / 10)) (pnlPctOf 67500000 50000000) =
      .trigger .TP :=
  ⟨(fixed_exit_iff.1 (35 / 100) (-(2 / 10)) 67500000 50000000).mpr
      (Or.inl (le_of_eq fixed_exit_iff.2.1.symm)),
   fixed_exit_iff.2.2 (-(2 / 10))⟩

theorem evalTickTrailing_nodup (bps : Int) (ps : PMap) (mint : String)
    (solOut : Int) (b : Bool) (h : PNodup ps) :
    PNodup (evalTickTrailing bps ps mint solOut b) := by
  cases hg : psGet ps mint with
  | none => simpa [evalTickTrailing, hg] using h
  | some pos =>
      cases hdec : trailingDecision bps pos.peakSolOut solOut with
      | peakUpdate newPeak =>
          simp only [evalTickTrailing, hg, hdec]
          exact psUpdate_nodup ps mint _ h
      | trigger r =>
          simp only [evalTickTrailing, hg, hdec]
          cases b with
          | true => simpa using psClose_nodup ps mint h
          | false => simpa using h
      | hold =>
          simp only [evalTickTrailing, hg, hdec]
          exact h

theorem trailTickRun_absent (bps : Int) (mint : String) (qs : List (Int × Bool)) :
    ∀ ps : PMap, psGet ps mint = none → trailTickRun bps mint ps qs = ps := by
  induction qs with
  | nil => intro ps _; rfl
  | cons q rest ih =>
      intro ps h
      have hstep : evalTickTrailing bps ps mint q.1 q.2 = ps := by
        unfold evalTickTrailing
        rw [h]
      show trailTickRun bps mint (evalTickTrailing bps ps mint q.1 q.2) rest = ps
      rw [hstep]
      exact ih ps h

/-- Claim C5: over any sequence of trailing-mode evaluation ticks, the stored
peak of a position never decreases while the position stays live: if the
position held peak `p` before the ticks and is still present afterwards, its
peak is some `p' ≥ p`. -/
theorem trailing_peak_monotone :
    ∀ (bps : Int) (qs : List (Int × Bool)) (ps : PMap) (mint : String)
      (pos : Position) (p : Int),
      PNodup ps → psGet ps mint = some pos → pos.peakSolOut = some p →
      ∀ pos', psGet (trailTickRun bps mint ps qs) mint = some pos' →
      ∃ p', pos'.peakSolOut = some p' ∧ p ≤ p' := by
  intro bps qs
  induction qs with
  | nil =>
      intro ps mint pos p _ hget hpk pos' hfin
      have : pos = pos' := by
        have h2 : psGet ps mint = some pos' := hfin
        rw [hget] at h2
        exact Option.some.inj h2
      exact ⟨p, by rw [← this]; exact hpk, le_refl p⟩
  | cons q rest ih =>
      intro ps mint pos p hnd hget hpk pos' hfin
      have hfin' : psGet (trailTickRun bps mint
          (evalTickTrailing bps ps mint q.1 q.2) rest) mint = some pos' := hfin
      by_cases hlt : p < q.1
      · -- new peak: the tick persists the quote through positions.update
        have hdec : trailingDecision bps pos.peakSolOut q.1 = .peakUpdate q.1 := by
          rw [hpk]
          simp [trailingDecision, hlt]
        have hstep : evalTickTrailing bps ps mint q.1 q.2 =
            psUpdate ps mint { peakSolOut := some q.1 } := by
          simp [evalTickTrailing, hget, hdec]
        have hget2 : psGet (evalTickTrailing bps ps mint q.1 q.2) mint =
            some (applyPatch pos { peakSolOut := some q.1 }) := by
          rw [hstep]
          exact psGet_psUpdate_self ps mint _ pos hget
        have hpk2 : (applyPatch pos { peakSolOut := some q.1 }).peakSolOut = some q.1 := by
          simp [applyPatch]
        have hnd2 : PNodup (evalTickTrailing bps ps mint q.1 q.2) :=
          evalTickTrailing_nodup bps ps mint q.1 q.2 hnd
        obtain ⟨p', h1, h2⟩ := ih _ mint _ q.1 hnd2 hget2 hpk2 pos' hfin'
        exact ⟨p', h1, le_trans (le_of_lt hlt) h2⟩
      · by_cases htr : q.1 ≤ Int.tdiv (p * (10000 - bps)) 10000
        · -- trigger tick: the position is either closed or left untouched
          have hdec : trailingDecision bps pos.peakSolOut q.1 = .trigger .TSL := by
            rw [hpk]
            simp [trailingDecision, hlt, htr]
          cases hb : q.2 with
          | true =>
              have hstep : evalTickTrailing bps ps mint q.1 q.2 = psClose ps mint := by
                simp [evalTickTrailing, hget, hdec, hb]
              have habs : psGet (evalTickTrailing bps ps mint q.1 q.2) mint = none := by
                rw [hstep]
                exact psGet_psClose_self ps mint hnd
              rw [trailTickRun_absent bps mint rest _ habs] at hfin'
              rw [habs] at hfin'
              cases hfin'
          | false =>
              have hstep : evalTickTrailing bps ps mint q.1 q.2 = ps := by
                simp [evalTickTrailing, hget, hdec, hb]
              rw [hstep] at hfin'
              exact ih ps mint pos p hnd hget hpk pos' hfin'
        · -- hold tick: the ledger is untouched
          have hdec : trailingDecision bps pos.peakSolOut q.1 = .hold := by
            rw [hpk]
            simp [trailingDecision, hlt, htr]
          have hstep : evalTickTrailing bps ps mint q.1 q.2 = ps := by
            simp [evalTickTrailing, hget, hdec]
          rw [hstep] at hfin'
          exact ih ps mint pos p hnd hget hpk pos' hfin'

/-- Witness for C5: one tick raising the peak from 10 to 15. -/
theorem trailing_peak_monotone_witness :
    ∃ p', (Position.mk "M" 0 "s" 1 1 (some 15)).peakSolOut = some p' ∧ (10 : Int) ≤ p' :=
  trailing_peak_monotone 3000 [(15, false)] [("M", ⟨"M", 0, "s", 1, 1, some 10⟩)]
    "M" ⟨"M", 0, "s", 1, 1, some 10⟩ 10 (by simp [PNodup]) rfl rfl
    ⟨"M", 0, "s", 1, 1, some 15⟩ (by decide)

/-! ### Detection dedup theorems -/

/-- Claim C2 (evaluation at the failing input): a signature whose transaction
parses as a buy is processed once through the push path and marked processed,
yet a second push-path delivery of the same signature emits a second `onBuy`
event, and folding the emitted events into the ledger accumulates the buy
twice. -/
theorem buy_push_replay_emits_twice :
    (buyDetRun (fun _ => true) [.pushStart "S", .finish "S"]).processed = ["S"] ∧
    (buyDetRun (fun _ => true) [.pushStart "S", .finish "S"]).buyEvents = ["S"] ∧
    (buyDetRun (fun _ => true)
        [.pushStart "S", .finish "S", .pushStart "S", .finish "S"]).buyEvents =
      ["S", "S"] ∧
    ((buyDetRun (fun _ => true)
        [.pushStart "S", .finish "S", .pushStart "S", .finish "S"]).buyEvents.map
        (fun sig => Position.mk "M" 0 sig 5 7 none)).foldl addBuy [] =
      [("M", ⟨"M", 0, "S", 10, 14, none⟩)] := by
  refine ⟨by decide, by decide, by decide, by decide⟩

theorem setAdd_subset (l : List String) (x y : String) (h : y ∈ setAdd l x) :
    y ∈ l ∨ y = x := by
  unfold setAdd at h
  by_cases hx : x ∈ l
  · rw [if_pos hx] at h
    exact Or.inl h
  · rw [if_neg hx] at h
    simpa using h

theorem markProcessed_inFlight (s : BuyDetState) (sig : String) :
    (markProcessed s sig).inFlight = s.inFlight := by
  simp only [markProcessed]
  split_ifs <;> rfl

theorem markProcessed_small_eq (s : BuyDetState) (sig : String)
    (hmem : sig ∉ s.processed) (hsmall : s.processedQueue.length < 200) :
    markProcessed s sig =
      { s with processed := s.processed ++ [sig]
               processedQueue := s.processedQueue ++ [sig] } := by
  unfold markProcessed
  rw [if_neg hmem, if_neg (by simp; omega)]

theorem markProcessed_full_eq (s : BuyDetState) (sig : String)
    (hmem : sig ∉ s.processed) (hemp : "" ∉ s.processedQueue)
    (heq : s.processed = s.processedQueue) (hq200 : s.processedQueue.length = 200) :
    markProcessed s sig =
      { s with processed := s.processedQueue.tail ++ [sig]
               processedQueue := s.processedQueue.tail ++ [sig] } := by
  obtain ⟨h0, t, hqe⟩ : ∃ h0 t, s.processedQueue = h0 :: t := by
    cases hq : s.processedQueue with
    | nil => rw [hq] at hq200; simp at hq200
    | cons a l => exact ⟨a, l, rfl⟩
  have h0ne : h0 ≠ "" := by
    intro h'
    apply hemp
    rw [hqe, h']
    exact List.mem_cons_self _ _
  have hlt : t.length = 199 := by
    rw [hqe] at hq200
    simpa using hq200
  unfold markProcessed
  rw [if_neg hmem, heq, hqe]
  rw [if_pos (by simp only [List.cons_append, List.length_cons, List.length_append,
    List.length_singleton, hlt]; omega)]
  simp only [List.cons_append, List.headD_cons, List.tail_cons]
  rw [if_neg h0ne, List.erase_cons_head]

theorem markProcessed_inv (s : BuyDetState) (sig : String) (hs : sig ≠ "")
    (h : BuyDedupInv s) : BuyDedupInv (markProcessed s sig) := by
  obtain ⟨heq, hnd, hemp, hlen⟩ := h
  by_cases hmem : sig ∈ s.processed
  · unfold markProcessed
    rw [if_pos hmem]
    exact ⟨heq, hnd, hemp, hlen⟩
  · have hsig_q : sig ∉ s.processedQueue := heq ▸ hmem
    rcases lt_or_eq_of_le hlen with hsmall | hfull
    · rw [markProcessed_small_eq s sig hmem hsmall]
      refine ⟨by simp [heq], ?_, ?_, ?_⟩
      · simp [List.nodup_append, hnd, hsig_q]
      · simp only [List.mem_append, List.mem_singleton]
        rintro (h' | h')
        · exact hemp h'
        · exact hs h'.symm
      · simp only [List.length_append, List.length_singleton]
        omega
    · rw [markProcessed_full_eq s sig hmem hemp heq hfull]
      obtain ⟨h0, t, hqe⟩ : ∃ h0 t, s.processedQueue = h0 :: t := by
        cases hq : s.processedQueue with
        | nil => rw [hq] at hfull; simp at hfull
        | cons a l => exact ⟨a, l, rfl⟩
      have hndt : t.Nodup := by
        rw [hqe] at hnd
        exact hnd.of_cons
      have hsig_t : sig ∉ t := by
        rw [hqe] at hsig_q
        exact fun h' => hsig_q (List.mem_cons_of_mem _ h')
      have hemp_t : "" ∉ t := by
        rw [hqe] at hemp
        exact fun h' => hemp (List.mem_cons_of_mem _ h')
      have hlen_t : t.length = 199 := by
        rw [hqe] at hfull
        simp at hfull
        omega
      refine ⟨by simp [hqe], ?_, ?_, ?_⟩
      · simp [hqe, List.nodup_append, hndt, hsig_t]
      · simp only [hqe, List.tail_cons, List.mem_append, List.mem_singleton]
        rintro (h' | h')
        · exact hemp_t h'
        · exact hs h'.symm
      · simp [hqe, hlen_t]

theorem buyDetStep_inv (parses : String → Bool) (s : BuyDetState) (op : DetOp)
    (h : BuyMachineInv s) : BuyMachineInv (buyDetStep parses s op) := by
  obtain ⟨hd, hfl⟩ := h
  cases op with
  | pushStart sig =>
      by_cases h0 : sig = ""
      · simp only [buyDetStep, if_pos h0]
        exact ⟨hd, hfl⟩
      · by_cases h1 : sig ∈ s.inFlight
        · simp only [buyDetStep, if_neg h0, if_pos h1]
          exact ⟨hd, hfl⟩
        · simp only [buyDetStep, if_neg h0, if_neg h1]
          refine ⟨hd, ?_⟩
          intro hm
          exact (setAdd_subset _ _ _ hm).elim hfl (fun he => h0 he.symm)
  | pollStart sig =>
      by_cases h0 : sig = ""
      · simp only [buyDetStep, if_pos h0]
        exact ⟨hd, hfl⟩
      · by_cases h2 : sig ∈ s.processed
        · simp only [buyDetStep, if_neg h0, if_pos h2]
          exact ⟨hd, hfl⟩
        · by_cases h1 : sig ∈ s.inFlight
          · simp only [buyDetStep, if_neg h0, if_neg h2, if_pos h1]
            exact ⟨hd, hfl⟩
          · simp only [buyDetStep, if_neg h0, if_neg h2, if_neg h1]
            refine ⟨hd, ?_⟩
            intro hm
            exact (setAdd_subset _ _ _ hm).elim hfl (fun he => h0 he.symm)
  | finish sig =>
      by_cases h1 : sig ∈ s.inFlight
      · have hsne : sig ≠ "" := fun he => hfl (he ▸ h1)
        by_cases hp : parses sig
        · simp only [buyDetStep, if_pos h1, if_pos hp]
          have hinv1 : BuyDedupInv (markProcessed { s with buyEvents := s.buyEvents ++ [sig] } sig) :=
            markProcessed_inv _ sig hsne hd
          refine ⟨hinv1, ?_⟩
          intro hm
          have hm2 := List.mem_of_mem_erase hm
          rw [markProcessed_inFlight] at hm2
          exact hfl hm2
        · simp only [buyDetStep, if_pos h1, if_neg hp]
          exact ⟨hd, fun hm => hfl (List.mem_of_mem_erase hm)⟩
      · simp only [buyDetStep, if_neg h1]
        exact ⟨hd, hfl⟩

theorem buyDetFold_inv (parses : String → Bool) (ops : List DetOp) :
    ∀ s : BuyDetState, BuyMachineInv s →
      BuyMachineInv (ops.foldl (buyDetStep parses) s) := by
  induction ops with
  | nil => intro s h; exact h
  | cons op rest ih =>
      intro s h
      exact ih _ (buyDetStep_inv parses s op h)

theorem launchPair_appends (decodes : String → Bool) :
    ∀ (sigs : List String) (s : LaunchDetState),
      s.inFlight = [] → sigs.Nodup →
      (∀ g ∈ sigs, g ≠ "" ∧ g ∉ s.processed ∧ decodes g = true) →
      (launchPairTrace sigs).foldl (launchDetStep decodes) s =
        ⟨[], s.processed ++ sigs, s.createEvents ++ sigs⟩ := by
  intro sigs
  induction sigs with
  | nil =>
      intro s hfl _ _
      obtain ⟨fl, pr, ev⟩ := s
      simp only at hfl
      subst hfl
      simp [launchPairTrace]
  | cons g rest ih =>
      intro s hfl hnd hcond
      obtain ⟨hg1, hg2, hg3⟩ := hcond g (by simp)
      have hstart : launchDetStep decodes s (.start g) = { s with inFlight := [g] } := by
        simp [launchDetStep, hg1, hg2, hfl, setAdd]
      have hfin : launchDetStep decodes { s with inFlight := [g] } (.finish g) =
          ⟨[], s.processed ++ [g], s.createEvents ++ [g]⟩ := by
        simp [launchDetStep, hg3, setAdd, hg2, List.erase_cons_head]
      have hgrest : g ∉ rest := (List.nodup_cons.mp hnd).1
      have hrun := ih ⟨[], s.processed ++ [g], s.createEvents ++ [g]⟩ rfl
        (List.nodup_cons.mp hnd).2
        (by
          intro g' hg'
          obtain ⟨c1, c2, c3⟩ := hcond g' (by simp [hg'])
          refine ⟨c1, ?_, c3⟩
          simp only [List.mem_append, List.mem_singleton]
          rintro (h' | h')
          · exact c2 h'
          · exact hgrest (h' ▸ hg'))
      show (launchPairTrace (g :: rest)).foldl (launchDetStep decodes) s = _
      rw [show launchPairTrace (g :: rest) =
        .start g :: .finish g :: launchPairTrace rest from rfl]
      simp only [List.foldl_cons]
      rw [hstart, hfin, hrun]
      simp

/-- Claim C7 counterexample: the processed set of the launch detector is a
plain `Set` with no eviction; after 201 distinct successfully processed
signatures its size is 201, exceeding the claimed bound of 200. -/
theorem launch_processed_set_unbounded :
    200 < ((launchDetRun (fun _ => true)
      (launchPairTrace ((List.range 201).map launchSig))).processed).length := by
  have hinj : Function.Injective launchSig := by
    intro a b h
    have h2 := congrArg String.data h
    simp only [launchSig] at h2
    have h3 := congrArg List.length h2
    simp only [List.length_replicate] at h3
    omega
  have hne : ∀ k : Nat, launchSig k ≠ "" := by
    intro k h
    have h2 := congrArg String.data h
    simp [launchSig, List.replicate_succ] at h2
  have hnodup : ((List.range 201).map launchSig).Nodup :=
    (List.nodup_range 201).map hinj
  have hrun := launchPair_appends (fun _ => true) ((List.range 201).map launchSig)
    launchDetInit rfl hnodup
    (by
      intro g hg
      obtain ⟨k, _, rfl⟩ := List.mem_map.mp hg
      exact ⟨hne k, by simp [launchDetInit], rfl⟩)
  unfold launchDetRun
  rw [hrun]
  simp [launchDetInit]

/-- Claim C7 (amended): the wallet-buy detector holds signatures in flight
during processing and its processed set, backed by a 200-entry FIFO queue,
never exceeds 200 entries, evicting the oldest entry when a new signature
arrives at capacity; the launch detector has no such bound. -/
theorem buy_processed_capacity :
    (∀ (parses : String → Bool) (ops : List DetOp),
        ((buyDetRun parses ops).processed).length ≤ 200) ∧
    (∀ (s : BuyDetState) (sig : String), sig ≠ "" →
        BuyDedupInv s → BuyDedupInv (markProcessed s sig)) ∧
    (∀ (s : BuyDetState) (sig : String),
        BuyDedupInv s → s.processedQueue.length = 200 → sig ∉ s.processed →
        sig ≠ "" →
        (markProcessed s sig).processedQueue = s.processedQueue.tail ++ [sig] ∧
        (markProcessed s sig).processed = s.processedQueue.tail ++ [sig]) := by
  refine ⟨?_, markProcessed_inv, ?_⟩
  · intro parses ops
    have hinit : BuyMachineInv buyDetInit :=
      ⟨⟨rfl, List.nodup_nil, by simp [buyDetInit], by simp [buyDetInit]⟩,
        by simp [buyDetInit]⟩
    have h := buyDetFold_inv parses ops buyDetInit hinit
    obtain ⟨⟨heq, _, _, hlen⟩, _⟩ := h
    unfold buyDetRun
    rw [heq]
    exact hlen
  · intro s sig hinv hq200 hmem hs
    obtain ⟨heq, _, hemp, _⟩ := hinv
    rw [markProcessed_full_eq s sig hmem hemp heq hq200]
    exact ⟨rfl, rfl⟩

/-- Witness for the amended C7: the bound holds on a concrete trace and the
invariant is preserved on a concrete small state. -/
theorem buy_processed_capacity_witness :
    ((buyDetRun (fun _ => true) [.pushStart "S", .finish "S"]).processed).length ≤ 200 ∧
    BuyDedupInv (markProcessed ⟨[], ["a"], ["a"], []⟩ "b") :=
  ⟨buy_processed_capacity.1 (fun _ => true) [.pushStart "S", .finish "S"],
   buy_processed_capacity.2.1 ⟨[], ["a"], ["a"], []⟩ "b" (by decide)
     ⟨rfl, by decide, by decide, by decide⟩⟩

/-! ### Sell submission pipeline theorems -/

/-- Claim C6 counterexample: an on-chain transaction error reported during
the processed-commitment wait of the first attempt is not terminal — the loop
resubmits (two submissions) and can even go on to confirm. -/
theorem sell_txError_resubmitted :
    sellAllModel ⟨.txError, .ok⟩ ⟨.ok, .ok⟩ = ⟨2, true, none, true⟩ ∧
    (sellAllModel ⟨.txError, .ok⟩ ⟨.ok, .ok⟩).submissions = 2 := by
  exact ⟨by decide, by decide⟩

/-- Claim C6 (amended): there are at most two submissions; the single
resubmission happens exactly when the first attempt fails its processed-stage
wait (for any reason, a reported transaction error included) or times out at
the confirmed stage; a second timeout is surfaced as a terminal failure; and
a transaction error reported at the confirmed stage of the first attempt is
terminal with no resubmission. -/
theorem sell_retry_characterization :
    (∀ a1 a2 : AttemptEnv, (sellAllModel a1 a2).submissions ≤ 2) ∧
    (∀ a1 a2 : AttemptEnv, (sellAllModel a1 a2).submissions = 2 ↔
        (a1.processedWait ≠ .ok ∨
          (a1.processedWait = .ok ∧ a1.confirmedWait = .timeout))) ∧
    (∀ a2 : AttemptEnv, sellAllModel ⟨.ok, .timeout⟩ a2 = sellAllSecondAttempt a2) ∧
    (∀ a2 : AttemptEnv, a2.processedWait = .ok → a2.confirmedWait = .timeout →
        sellAllSecondAttempt a2 = ⟨2, false, some .timeout, false⟩) ∧
    (∀ a1 a2 : AttemptEnv, a1.processedWait = .ok → a1.confirmedWait = .txError →
        sellAllModel a1 a2 = ⟨1, false, some .txError, false⟩) := by
  refine ⟨?_, ?_, ?_, ?_, ?_⟩
  · rintro ⟨p1, c1⟩ ⟨p2, c2⟩
    cases p1 <;> cases c1 <;> cases p2 <;> cases c2 <;> decide
  · rintro ⟨p1, c1⟩ ⟨p2, c2⟩
    cases p1 <;> cases c1 <;> cases p2 <;> cases c2 <;> decide
  · rintro ⟨p2, c2⟩
    cases p2 <;> cases c2 <;> decide
  · rintro ⟨p2, c2⟩ h1 h2
    simp only at h1 h2
    subst h1; subst h2
    decide
  · rintro ⟨p1, c1⟩ ⟨p2, c2⟩ h1 h2
    simp only at h1 h2
    subst h1; subst h2
    cases p2 <;> cases c2 <;> decide

/-- Witness for the amended C6 on concrete attempt outcomes. -/
theorem sell_retry_characterization_witness :
    sellAllSecondAttempt ⟨.ok, .timeout⟩ = ⟨2, false, some .timeout, false⟩ ∧
    sellAllModel ⟨.ok, .txError⟩ ⟨.ok, .ok⟩ = ⟨1, false, some .txError, false⟩ :=
  ⟨sell_retry_characterization.2.2.2.1 ⟨.ok, .timeout⟩ rfl rfl,
   sell_retry_characterization.2.2.2.2 ⟨.ok, .txError⟩ ⟨.ok, .ok⟩ rfl rfl⟩

/-! ### Launch decoder theorems -/

theorem truthyStr_eq_some (o : Option String) (m : String)
    (h : truthyStr o = some m) : m ≠ "" ∧ o = some m := by
  cases o with
  | none => simp [truthyStr] at h
  | some s =>
      by_cases hs : s = ""
      · simp [truthyStr, hs] at h
      · simp only [truthyStr, if_neg hs] at h
        have hsm : s = m := Option.some.inj h
        subst hsm
        exact ⟨hs, rfl⟩

/-- Claim C8: an emitted launch event always carries a non-empty mint that
was resolved from the accounts of the decoded `create`, or from the
token-balance majority fallback, or from the parsed inner-instruction
re-parse, tried in that order; when no source yields a mint, or no `create`
decodes at all, no event is emitted. -/
theorem launch_mint_always_resolved :
    (∀ (pid : String) (tx : RawTxView) (e : NewLaunchEvent),
        decodeLaunchTx pid tx = some e →
        e.mint ≠ "" ∧
        ∃ payload mint0 user, foundCreate pid tx = some (payload, mint0, user) ∧
          (mint0 = some e.mint ∨
            (mint0 = none ∧
              (majorityMint tx.postTokenBalanceMints = some e.mint ∨
                (majorityMint tx.postTokenBalanceMints = none ∧
                  parsedInnerMint tx.parsedInner = some e.mint))))) ∧
    (∀ (pid : String) (tx : RawTxView) (payload : CreatePayload)
        (user : Option String),
        foundCreate pid tx = some (payload, none, user) →
        majorityMint tx.postTokenBalanceMints = none →
        parsedInnerMint tx.parsedInner = none →
        decodeLaunchTx pid tx = none) ∧
    (∀ (pid : String) (tx : RawTxView),
        foundCreate pid tx = none → decodeLaunchTx pid tx = none) := by
  refine ⟨?_, ?_, ?_⟩
  · intro pid tx e h
    unfold decodeLaunchTx at h
    by_cases herr : tx.err
    · rw [if_pos herr] at h
      exact Option.noConfusion h
    · rw [if_neg herr] at h
      cases hfc : foundCreate pid tx with
      | none =>
          rw [hfc] at h
          exact Option.noConfusion h
      | some r =>
          obtain ⟨payload, mint0, user⟩ := r
          rw [hfc] at h
          cases hres : truthyStr (resolvedMint pid tx) with
          | none =>
              rw [hres] at h
              exact Option.noConfusion h
          | some m =>
              rw [hres] at h
              have hinj := Option.some.inj h
              have hme : e.mint = m := by rw [← hinj]
              obtain ⟨hmne, hres2⟩ := truthyStr_eq_some _ _ hres
              refine ⟨by rw [hme]; exact hmne, payload, mint0, user, rfl, ?_⟩
              rw [hme]
              unfold resolvedMint at hres2
              rw [hfc] at hres2
              cases mint0 with
              | some m0 => exact Or.inl (by rw [Option.some.inj hres2])
              | none =>
                  cases hmj : majorityMint tx.postTokenBalanceMints with
                  | some mm =>
                      rw [hmj] at hres2
                      exact Or.inr ⟨rfl, Or.inl (by rw [Option.some.inj hres2])⟩
                  | none =>
                      rw [hmj] at hres2
                      exact Or.inr ⟨rfl, Or.inr ⟨rfl, hres2⟩⟩
  · intro pid tx payload user hfc hmj hpi
    have hres : resolvedMint pid tx = none := by
      unfold resolvedMint
      rw [hfc]
      show (match majorityMint tx.postTokenBalanceMints with
            | some m => some m
            | none => parsedInnerMint tx.parsedInner) = none
      rw [hmj]
      exact hpi
    unfold decodeLaunchTx
    by_cases herr : tx.err
    · rw [if_pos herr]
    · rw [if_neg herr, hfc, hres]
      rfl
  · intro pid tx h
    unfold decodeLaunchTx
    by_cases herr : tx.err
    · rw [if_pos herr]
    · rw [if_neg herr, h]

/-- Witness for C8 on a concrete create transaction whose accounts resolve
the mint directly. -/
theorem launch_mint_always_resolved_witness :
    (NewLaunchEvent.mk "MINT" "CREATOR" "Nm" "SYM" "uri").mint ≠ "" ∧
    ∃ payload mint0 user,
      foundCreate "PUMP" sampleCreateTx = some (payload, mint0, user) ∧
      (mint0 = some (NewLaunchEvent.mk "MINT" "CREATOR" "Nm" "SYM" "uri").mint ∨
        (mint0 = none ∧
          (majorityMint sampleCreateTx.postTokenBalanceMints =
              some (NewLaunchEvent.mk "MINT" "CREATOR" "Nm" "SYM" "uri").mint ∨
            (majorityMint sampleCreateTx.postTokenBalanceMints = none ∧
              parsedInnerMint sampleCreateTx.parsedInner =
                some (NewLaunchEvent.mk "MINT" "CREATOR" "Nm" "SYM" "uri").mint)))) :=
  launch_mint_always_resolved.1 "PUMP" sampleCreateTx
    ⟨"MINT", "CREATOR", "Nm", "SYM", "uri"⟩ (by decide)

end Pumpfun
